import Mathlib

/-!
Shallow embedding of the name-normalization core of `XY-new.py`
(PLC XY converter).  Strings are modelled as `List Char`; the Python
regexes are modelled structurally:

* `AREA_RE = ^([A-Za-z]+\d+)` — ASCII letters then digits at the start;
* `CO_RE = ^CO-\d+$` (fullmatch) — exactly "CO-" followed by digits;
* `re.search(r'(\d+)', t)` — the first maximal run of decimal digits;
* `re.sub(r'[^\w\-]', '', s)` — keep word characters and hyphens.

Python's `\d` and `\w` are Unicode classes; the embedding restricts
`\d` to the ASCII digits `0`-`9` and `\w` to ASCII alphanumerics,
underscore, and the CJK Unified Ideographs block (U+4E00..U+9FFF),
which covers every character the converter's lexicons and inputs use.
`str.strip()` is modelled with `Char.isWhitespace`.
-/

/-- Word character test for `re.sub(r'[^\w\-]', '', s)`: ASCII
alphanumerics, underscore, or a CJK Unified Ideograph. -/
def isWordChar (c : Char) : Bool :=
  c.isAlphanum || c = '_' || (0x4E00 ≤ c.toNat && c.toNat ≤ 0x9FFF)

/-- `re.sub(r'[^\w\-]', '', s)`: delete every character that is neither
a word character nor a hyphen. -/
def sanitize (s : List Char) : List Char :=
  s.filter (fun c => isWordChar c || c = '-')

/-- `str.strip()`: drop leading and trailing whitespace. -/
def trim (l : List Char) : List Char :=
  ((l.dropWhile Char.isWhitespace).reverse.dropWhile Char.isWhitespace).reverse

/-- `needle` is a prefix of `hay` (character by character). -/
def leadsWith : List Char → List Char → Bool
  | [], _ => true
  | _ :: _, [] => false
  | a :: as, b :: bs => a = b && leadsWith as bs

/-- Python `hay.find(needle)`: index of the first occurrence of
`needle` as a contiguous substring of `hay`, or `none`. -/
def strFind (needle : List Char) : List Char → Option Nat
  | [] => if leadsWith needle [] then some 0 else none
  | c :: t =>
    if leadsWith needle (c :: t) then some 0
    else (strFind needle t).map (· + 1)

/-- Containment test (`needle in hay` / `hay.find(needle) != -1`). -/
def occurs (needle hay : List Char) : Bool :=
  (strFind needle hay).isSome

/-- `re.search(r'(\d+)', l)`: the first maximal run of decimal digits
in `l` (empty list when `l` has no digit). -/
def firstDigitRun : List Char → List Char
  | [] => []
  | c :: cs =>
    if c.isDigit then c :: cs.takeWhile Char.isDigit else firstDigitRun cs

/-- `AREA_RE.match(text)`: the span of `^([A-Za-z]+\d+)` — a maximal
run of ASCII letters followed by a maximal run of ASCII digits, both
nonempty — or the empty list when the pattern does not match. -/
def extract_area_prefix (s : List Char) : List Char :=
  let letters := s.takeWhile (fun c => c.isUpper || c.isLower)
  let rest := s.drop letters.length
  let digits := rest.takeWhile Char.isDigit
  if letters.isEmpty || digits.isEmpty then [] else letters ++ digits

/-- The device lexicon `DEVICE_MAP`, in its declared (insertion) order. -/
def DEVICE_MAP : List (List Char × List Char) :=
  [("進風機".data, "IN_M".data),
   ("進氣機".data, "IN_M".data),
   ("排風機".data, "OUT_M".data),
   ("排氣機".data, "OUT_M".data),
   ("噴流風機".data, "M".data),
   ("電動風門".data, "D".data)]

/-- The signal-kind lexicon `SUFFIX_MAP`, in its declared order. -/
def SUFFIX_MAP : List (List Char × List Char) :=
  [("運轉訊號".data, "STAT".data),
   ("故障訊號".data, "ALM".data)]

/-- The loop of `extract_device_and_no`: walk the lexicon in declared
order; on the first entry whose phrase occurs in `text`, return its
code together with the first digit run after the end of the matched
occurrence. -/
def deviceScan : List (List Char × List Char) → List Char → Option (List Char) × List Char
  | [], _ => (none, [])
  | (zh, en) :: rest, text =>
    match strFind zh text with
    | some idx => (some en, firstDigitRun (text.drop (idx + zh.length)))
    | none => deviceScan rest text

/-- `extract_device_and_no(text)` from the source. -/
def extract_device_and_no (text : List Char) : Option (List Char) × List Char :=
  deviceScan DEVICE_MAP text

/-- The suffix loop of `convert_x_name`: first signal-kind phrase (in
lexicon order) contained in `s` gives the suffix; none gives `""`. -/
def findSuffix : List (List Char × List Char) → List Char → List Char
  | [], _ => []
  | (zh, suf) :: rest, s => if occurs zh s then suf else findSuffix rest s

/-- `CO_RE.fullmatch(s)` for `CO_RE = ^CO-\d+$`: the whole string is
"CO-" followed by one or more decimal digits. -/
def coFullmatch : List Char → Bool
  | a :: b :: d :: rest =>
    a = 'C' && b = 'O' && d = '-' && !rest.isEmpty && rest.all Char.isDigit
  | _ => false

/-- The display-label map `{"IN_M": "In Motor", "OUT_M": "Out Motor",
"M": "Motor"}` used in the motor branch of `convert_y_name`. -/
def motorLabel (code : List Char) : List Char :=
  if code = "IN_M".data then "In Motor".data
  else if code = "OUT_M".data then "Out Motor".data
  else "Motor".data

/-- `convert_x_name` from the source.  `none` models a null/NaN cell
(`is_na`); `some l` a string cell. -/
def convert_x_name : Option (List Char) → List Char
  | none => []
  | some name =>
    let s := trim name
    let area := extract_area_prefix s
    match extract_device_and_no s with
    | (none, _) => sanitize s
    | (some devCode, devNo) =>
      if devCode.isEmpty then sanitize s
      else
        let suffix := findSuffix SUFFIX_MAP s
        let base := devCode ++ devNo
        let base2 := if area.isEmpty then base else area ++ "_".data ++ base
        if suffix.isEmpty then base2 else base2 ++ "_".data ++ suffix

/-- `convert_y_name` from the source.  `none` models a null/NaN cell. -/
def convert_y_name : Option (List Char) → List Char
  | none => []
  | some name =>
    let s := trim name
    if coFullmatch s then s
    else
      let area := extract_area_prefix s
      match extract_device_and_no s with
      | (none, _) => s
      | (some devCode, devNo) =>
        if devCode = "IN_M".data ∨ devCode = "OUT_M".data ∨ devCode = "M".data then
          let label := motorLabel devCode
          let pre := if area.isEmpty then [] else area ++ " ".data
          pre ++ label ++ devNo
        else if devCode = "D".data then
          let desc := "DOOR".data ++ devNo
          if area.isEmpty then desc else area ++ "_".data ++ desc
        else s

/-- Spec-side predicate: no decimal digit occurs in `l`. -/
def noDigit (l : List Char) : Prop := ∀ c ∈ l, c.isDigit = false

/-- Spec-side characterization: `run` is the first maximal run of
decimal digits in `l` (or empty when `l` has no digit). -/
def isFirstDigitRun (l run : List Char) : Prop :=
  (run = [] ∧ noDigit l) ∨
  (run ≠ [] ∧ (∀ c ∈ run, c.isDigit = true) ∧
    ∃ pre post, l = pre ++ run ++ post ∧ noDigit pre ∧
      ∀ c, post.head? = some c → c.isDigit = false)

/-- Heads produced by `dropWhile` never satisfy the predicate. -/
theorem head?_dropWhile_false (p : Char → Bool) :
    ∀ (t : List Char) (c : Char), (t.dropWhile p).head? = some c → p c = false := by
  intro t
  induction t with
  | nil => intro c hc; cases hc
  | cons a t ih =>
    intro c hc
    by_cases ha : p a
    · rw [List.dropWhile_cons_of_pos ha] at hc
      exact ih c hc
    · rw [List.dropWhile_cons_of_neg ha] at hc
      injection hc with h
      subst h
      exact Bool.eq_false_iff.mpr ha

/-- `dropWhile` is idempotent. -/
theorem dropWhile_self (p : Char → Bool) (l : List Char) :
    (l.dropWhile p).dropWhile p = l.dropWhile p := by
  induction l with
  | nil => rfl
  | cons a t ih =>
    by_cases ha : p a
    · rw [List.dropWhile_cons_of_pos ha]; exact ih
    · rw [List.dropWhile_cons_of_neg ha, List.dropWhile_cons_of_neg ha]

/-- A list whose head fails the predicate is fixed by `dropWhile`. -/
theorem dropWhile_eq_self_of_head (p : Char → Bool) (m : List Char)
    (h : ∀ c, m.head? = some c → p c = false) : m.dropWhile p = m := by
  cases m with
  | nil => rfl
  | cons a t =>
    have ha : p a = false := h a rfl
    rw [List.dropWhile_cons_of_neg (by simp [ha])]

/-- Cons does not change `getLast?` of a nonempty list. -/
theorem getLast?_cons_of_ne (a : Char) (t : List Char) (ht : t ≠ []) :
    (a :: t).getLast? = t.getLast? := by
  cases t with
  | nil => exact absurd rfl ht
  | cons b u => exact List.getLast?_cons_cons

/-- `dropWhile` keeps the last element of a list (when anything is kept). -/
theorem getLast?_dropWhile (p : Char → Bool) :
    ∀ t : List Char, t.dropWhile p ≠ [] → (t.dropWhile p).getLast? = t.getLast? := by
  intro t
  induction t with
  | nil => intro h; exact absurd rfl h
  | cons a t ih =>
    intro h
    by_cases ha : p a
    · rw [List.dropWhile_cons_of_pos ha] at h ⊢
      have ht : t ≠ [] := by
        intro he; rw [he] at h; exact h rfl
      rw [ih h, getLast?_cons_of_ne a t ht]
    · rw [List.dropWhile_cons_of_neg ha]

/-- `trim` is idempotent. -/
theorem trim_trim (l : List Char) : trim (trim l) = trim l := by
  unfold trim
  rcases hB : (l.dropWhile Char.isWhitespace).reverse.dropWhile Char.isWhitespace
      with _ | ⟨b, B⟩
  · simp
  · have hBne : (l.dropWhile Char.isWhitespace).reverse.dropWhile Char.isWhitespace ≠ [] := by
      rw [hB]; intro h; cases h
    have hstep1 :
        ((b :: B).reverse).dropWhile Char.isWhitespace = (b :: B).reverse := by
      apply dropWhile_eq_self_of_head
      intro c hc
      rw [List.head?_reverse] at hc
      rw [← hB] at hc
      rw [getLast?_dropWhile Char.isWhitespace _ hBne] at hc
      rw [List.getLast?_reverse] at hc
      exact head?_dropWhile_false Char.isWhitespace _ c hc
    rw [hstep1, List.reverse_reverse, ← hB, dropWhile_self]

/-- A scan over entries none of whose phrases occur yields no category. -/
theorem deviceScan_nomatch (l : List (List Char × List Char)) (s : List Char)
    (h : ∀ e ∈ l, occurs e.1 s = false) : deviceScan l s = (none, []) := by
  induction l with
  | nil => rfl
  | cons e rest ih =>
    obtain ⟨zh, en⟩ := e
    have h0 : occurs zh s = false := h (zh, en) (List.mem_cons_self _ _)
    have h1 : strFind zh s = none := by
      rcases hf : strFind zh s with _ | v
      · rfl
      · simp [occurs, hf] at h0
    simp only [deviceScan, h1]
    exact ih fun e he => h e (List.mem_cons_of_mem _ he)

/-- The scan returns the first entry, in declared order, whose phrase
occurs, together with the digit run after that phrase's first
occurrence. -/
theorem deviceScan_append (pre : List (List Char × List Char)) (zh en : List Char)
    (rest : List (List Char × List Char)) (s : List Char) (idx : Nat)
    (hpre : ∀ g ∈ pre, occurs g.1 s = false)
    (hfind : strFind zh s = some idx) :
    deviceScan (pre ++ (zh, en) :: rest) s
      = (some en, firstDigitRun (s.drop (idx + zh.length))) := by
  induction pre with
  | nil => simp only [List.nil_append, deviceScan, hfind]
  | cons g gs ih =>
    obtain ⟨gz, ge⟩ := g
    have h0 : occurs gz s = false := hpre (gz, ge) (List.mem_cons_self _ _)
    have h1 : strFind gz s = none := by
      rcases hf : strFind gz s with _ | v
      · rfl
      · simp [occurs, hf] at h0
    simp only [List.cons_append, deviceScan, h1]
    exact ih fun g hg => hpre g (List.mem_cons_of_mem _ hg)

/-- Every category the scan can return is the code of some lexicon entry. -/
theorem deviceScan_code_mem (l : List (List Char × List Char)) (s c n : List Char)
    (h : deviceScan l s = (some c, n)) : ∃ e ∈ l, c = e.2 := by
  induction l with
  | nil => simp [deviceScan] at h
  | cons e rest ih =>
    obtain ⟨zh, en⟩ := e
    rcases hf : strFind zh s with _ | idx
    · simp only [deviceScan, hf] at h
      obtain ⟨e, he, hc⟩ := ih h
      exact ⟨e, List.mem_cons_of_mem _ he, hc⟩
    · simp only [deviceScan, hf, Prod.mk.injEq, Option.some.injEq] at h
      exact ⟨(zh, en), List.mem_cons_self _ _, h.1.symm⟩

/-- `firstDigitRun` satisfies the declarative description: it is the
first maximal run of decimal digits, empty when no digit occurs. -/
theorem firstDigitRun_spec (l : List Char) : isFirstDigitRun l (firstDigitRun l) := by
  induction l with
  | nil => exact Or.inl ⟨rfl, fun c hc => absurd hc (List.not_mem_nil c)⟩
  | cons a t ih =>
    by_cases ha : a.isDigit
    · have hrun : firstDigitRun (a :: t) = a :: t.takeWhile Char.isDigit := by
        simp [firstDigitRun, ha]
      right
      rw [hrun]
      refine ⟨by simp, ?_, [], t.dropWhile Char.isDigit, ?_, ?_, ?_⟩
      · intro c hc
        rcases List.mem_cons.mp hc with rfl | hc
        · exact ha
        · exact List.mem_takeWhile_imp hc
      · simp
      · intro c hc
        exact absurd hc (List.not_mem_nil c)
      · intro c hc
        exact head?_dropWhile_false Char.isDigit t c hc
    · have hrun : firstDigitRun (a :: t) = firstDigitRun t := by
        simp [firstDigitRun, ha]
      rw [hrun]
      rcases ih with ⟨h1, h2⟩ | ⟨h1, h2, pre, post, h3, h4, h5⟩
      · refine Or.inl ⟨h1, ?_⟩
        intro c hc
        rcases List.mem_cons.mp hc with rfl | hc
        · exact Bool.eq_false_iff.mpr ha
        · exact h2 c hc
      · refine Or.inr ⟨h1, h2, a :: pre, post, ?_, ?_, h5⟩
        · conv_lhs => rw [h3]
          simp

        intro c hc
        rcases List.mem_cons.mp hc with rfl | hc
        · exact Bool.eq_false_iff.mpr ha
        · exact h4 c hc

/-- Characters of a prefix are characters of the longer list. -/
theorem leadsWith_mem (c : Char) :
    ∀ needle hay : List Char, leadsWith needle hay = true → c ∈ needle → c ∈ hay := by
  intro needle
  induction needle with
  | nil => intro hay _ hc; exact absurd hc (List.not_mem_nil c)
  | cons a as ih =>
    intro hay h hc
    cases hay with
    | nil => simp [leadsWith] at h
    | cons b bs =>
      rw [leadsWith, Bool.and_eq_true] at h
      rcases List.mem_cons.mp hc with rfl | hc
      · have hab : c = b := of_decide_eq_true h.1
        exact hab ▸ List.mem_cons_self _ _
      · exact List.mem_cons_of_mem _ (ih bs h.2 hc)

/-- A successful `strFind` transports membership from needle to haystack. -/
theorem strFind_mem (c : Char) (needle : List Char) :
    ∀ (hay : List Char) (i : Nat), strFind needle hay = some i → c ∈ needle → c ∈ hay := by
  intro hay
  induction hay with
  | nil =>
    intro i h hc
    rw [strFind] at h
    by_cases hl : leadsWith needle [] = true
    · cases needle with
      | nil => exact absurd hc (List.not_mem_nil c)
      | cons a as => simp [leadsWith] at hl
    · rw [if_neg hl] at h; cases h
  | cons b bs ih =>
    intro i h hc
    rw [strFind] at h
    by_cases hl : leadsWith needle (b :: bs) = true
    · exact leadsWith_mem c needle (b :: bs) hl hc
    · rw [if_neg hl] at h
      rcases hf : strFind needle bs with _ | j
      · rw [hf] at h; cases h
      · exact List.mem_cons_of_mem _ (ih j hf hc)

/-- Every character of a string matched by `CO_RE` is `C`, `O`, `-`,
or a decimal digit. -/
theorem coFullmatch_chars (s : List Char) (h : coFullmatch s = true) :
    ∀ c ∈ s, c = 'C' ∨ c = 'O' ∨ c = '-' ∨ c.isDigit = true := by
  cases s with
  | nil => intro c hc; exact absurd hc (List.not_mem_nil c)
  | cons a t =>
    cases t with
    | nil => simp [coFullmatch] at h
    | cons b u =>
      cases u with
      | nil => simp [coFullmatch] at h
      | cons d rest =>
        simp only [coFullmatch, Bool.and_eq_true, decide_eq_true_eq] at h
        obtain ⟨⟨⟨⟨ha, hb⟩, hd⟩, hne⟩, hall⟩ := h
        intro c hc
        rcases List.mem_cons.mp hc with rfl | hc
        · exact Or.inl ha
        rcases List.mem_cons.mp hc with rfl | hc
        · exact Or.inr (Or.inl hb)
        rcases List.mem_cons.mp hc with rfl | hc
        · exact Or.inr (Or.inr (Or.inl hd))
        · exact Or.inr (Or.inr (Or.inr (List.all_eq_true.mp hall c hc)))

/-- A `CO_RE` pass-through code contains no device-lexicon phrase, so
the device scan finds nothing in it. -/
theorem coFullmatch_no_device (s : List Char) (h : coFullmatch s = true) :
    extract_device_and_no s = (none, []) := by
  have key : ∀ zh en : List Char, ∀ c : Char, c ∈ zh →
      ¬(c = 'C' ∨ c = 'O' ∨ c = '-' ∨ c.isDigit = true) → occurs zh s = false := by
    intro zh en c hczh hcs
    rcases hf : strFind zh s with _ | i
    · simp [occurs, hf]
    · exact absurd (coFullmatch_chars s h c (strFind_mem c zh s i hf hczh)) hcs
  apply deviceScan_nomatch
  intro e he
  fin_cases he
  · exact key _ [] '進' (by decide) (by decide)
  · exact key _ [] '進' (by decide) (by decide)
  · exact key _ [] '排' (by decide) (by decide)
  · exact key _ [] '排' (by decide) (by decide)
  · exact key _ [] '噴' (by decide) (by decide)
  · exact key _ [] '電' (by decide) (by decide)

/-- Prefix tests survive appending on the right. -/
theorem leadsWith_append (n l b : List Char) (h : leadsWith n l = true) :
    leadsWith n (l ++ b) = true := by
  induction n generalizing l with
  | nil => rfl
  | cons a as ih =>
    cases l with
    | nil => simp [leadsWith] at h
    | cons c t =>
      rw [List.cons_append]
      rw [leadsWith, Bool.and_eq_true] at h ⊢
      exact ⟨h.1, ih t h.2⟩

/-- Occurrence survives consing a character on the left. -/
theorem occurs_cons (zh : List Char) (x : Char) (t : List Char)
    (h : occurs zh t = true) : occurs zh (x :: t) = true := by
  rw [occurs, strFind]
  by_cases hl : leadsWith zh (x :: t) = true
  · simp [hl]
  · rw [if_neg hl]
    rw [occurs] at h
    rcases hs : strFind zh t with _ | v
    · rw [hs] at h; simp at h
    · simp [hs]

/-- Occurrence survives appending on the left. -/
theorem occurs_append_left (zh a t : List Char) (h : occurs zh t = true) :
    occurs zh (a ++ t) = true := by
  induction a with
  | nil => exact h
  | cons x xs ih => exact occurs_cons zh x (xs ++ t) ih

/-- Occurrence survives appending on the right. -/
theorem occurs_append_right (zh l b : List Char) (h : occurs zh l = true) :
    occurs zh (l ++ b) = true := by
  induction l with
  | nil =>
    cases zh with
    | nil =>
      cases b with
      | nil => exact h
      | cons x xs => simp [occurs, strFind, leadsWith]
    | cons a as => simp [occurs, strFind, leadsWith] at h
  | cons c t ih =>
    rw [occurs, strFind] at h
    by_cases hl : leadsWith zh (c :: t) = true
    · have h2 := leadsWith_append zh (c :: t) b hl
      rw [List.cons_append] at h2
      rw [List.cons_append, occurs, strFind]
      simp [h2]
    · rw [if_neg hl] at h
      have ht : occurs zh t = true := by
        rw [occurs]
        rcases hs : strFind zh t with _ | v
        · rw [hs] at h; simp at h
        · rfl
      rw [List.cons_append]
      exact occurs_cons zh c (t ++ b) (ih ht)

/-- A label is its leading whitespace, its trimmed core, and its
trailing whitespace, in that order. -/
theorem trim_decomp (l : List Char) :
    l = l.takeWhile Char.isWhitespace ++ trim l ++
        ((l.dropWhile Char.isWhitespace).reverse.takeWhile Char.isWhitespace).reverse := by
  unfold trim
  conv_lhs => rw [← List.takeWhile_append_dropWhile Char.isWhitespace l]
  rw [List.append_assoc]
  congr 1
  rw [← List.reverse_append, List.takeWhile_append_dropWhile, List.reverse_reverse]

/-- A phrase occurring in the trimmed label occurs in the raw label. -/
theorem occurs_of_occurs_trim (zh l : List Char) (h : occurs zh (trim l) = true) :
    occurs zh l = true := by
  conv_lhs => rw [trim_decomp l]
  exact occurs_append_right zh _ _ (occurs_append_left zh _ _ h)

/-- C1: for every non-null raw label in which no device-lexicon phrase
occurs as a substring, `convert_x_name` returns the trimmed input with
every character that is not a word character (alphanumeric or
underscore) or hyphen removed. -/
theorem c1_sanitize_fallback (name : List Char)
    (h : ∀ e ∈ DEVICE_MAP, occurs e.1 name = false) :
    convert_x_name (some name)
      = (trim name).filter (fun c => isWordChar c || c = '-') := by
  have h2 : ∀ e ∈ DEVICE_MAP, occurs e.1 (trim name) = false := by
    intro e he
    rcases ho : occurs e.1 (trim name) with _ | _
    · rfl
    · have h3 := occurs_of_occurs_trim e.1 name ho
      rw [h e he] at h3
      cases h3
  have hx : extract_device_and_no (trim name) = (none, []) :=
    deviceScan_nomatch DEVICE_MAP (trim name) h2
  simp only [convert_x_name, hx, sanitize]

/-- Witness for C1 at the device-free label `" abc!@#def-1 "`. -/
theorem c1_witness :
    convert_x_name (some " abc!@#def-1 ".data)
      = (trim " abc!@#def-1 ".data).filter (fun c => isWordChar c || c = '-') :=
  c1_sanitize_fallback (" abc!@#def-1 ".data) (by decide)

/-- C2: when a label contains the phrases of two (or more) lexicon
entries — here an entry `(zh, en)` preceded in the declared order only
by non-matching entries, and a later entry `(fzh, fen)` that also
matches — the parser returns the category of the entry that comes
first in the lexicon's declared order, regardless of where the two
phrases sit in the text. -/
theorem c2_lexicon_order (s : List Char)
    (pre mid post : List (List Char × List Char)) (zh en fzh fen : List Char)
    (hmap : DEVICE_MAP = pre ++ (zh, en) :: (mid ++ (fzh, fen) :: post))
    (hpre : ∀ g ∈ pre, occurs g.1 s = false)
    (he : occurs zh s = true) (_hf : occurs fzh s = true) :
    (extract_device_and_no s).1 = some en := by
  obtain ⟨idx, hidx⟩ : ∃ i, strFind zh s = some i := by
    rcases hh : strFind zh s with _ | i
    · simp [occurs, hh] at he
    · exact ⟨i, rfl⟩
  have hd := deviceScan_append pre zh en (mid ++ (fzh, fen) :: post) s idx hpre hidx
  rw [extract_device_and_no, hmap, hd]

/-- Witness for C2: `"電動風門進風機7"` contains the door phrase first in
the text, but the inbound-motor phrase comes first in the lexicon. -/
theorem c2_witness :
    (extract_device_and_no "電動風門進風機7".data).1 = some "IN_M".data :=
  c2_lexicon_order "電動風門進風機7".data []
    [("進氣機".data, "IN_M".data), ("排風機".data, "OUT_M".data),
     ("排氣機".data, "OUT_M".data), ("噴流風機".data, "M".data)] []
    "進風機".data "IN_M".data "電動風門".data "D".data
    (by decide) (by decide) (by decide) (by decide)

/-- C3: when a device category matched, `convert_x_name` returns
`categoryCode ++ instanceNumber`, with `area ++ "_"` prepended when an
area prefix was extracted and `"_" ++ suffixCode` appended when a
signal-kind phrase was found; and the two cited examples hold. -/
theorem c3_x_composition :
    (∀ name code no : List Char,
      extract_device_and_no (trim name) = (some code, no) →
      convert_x_name (some name) =
        (if ( extract_area_prefix (trim name)).isEmpty then []
         else extract_area_prefix (trim name) ++ "_".data) ++ code ++ no ++
        (if (findSuffix SUFFIX_MAP (trim name)).isEmpty then []
         else "_".data ++ findSuffix SUFFIX_MAP (trim name))) ∧
    convert_x_name (some "A16進風機1運轉訊號".data) = "A16_IN_M1_STAT".data ∧
    convert_x_name (some "進氣機2故障訊號".data) = "IN_M2_ALM".data := by
  refine ⟨?_, by decide, by decide⟩
  intro name code no h
  have hcode : code ≠ [] := by
    obtain ⟨e, he, hc⟩ := deviceScan_code_mem DEVICE_MAP (trim name) code no h
    subst hc
    fin_cases he <;> decide
  have hce : code.isEmpty = false := by
    cases code with
    | nil => exact absurd rfl hcode
    | cons a t => rfl
  by_cases harea : ( extract_area_prefix (trim name)).isEmpty
  <;> by_cases hsuf : (findSuffix SUFFIX_MAP (trim name)).isEmpty
  <;> simp [convert_x_name, h, hce, harea, hsuf, List.append_assoc]

/-- Witness for C3 at `"A16進風機1運轉訊號"`. -/
theorem c3_witness :
    convert_x_name (some "A16進風機1運轉訊號".data) =
      (if ( extract_area_prefix (trim "A16進風機1運轉訊號".data)).isEmpty then []
       else extract_area_prefix (trim "A16進風機1運轉訊號".data) ++ "_".data)
        ++ "IN_M".data ++ "1".data ++
      (if (findSuffix SUFFIX_MAP (trim "A16進風機1運轉訊號".data)).isEmpty then []
       else "_".data ++ findSuffix SUFFIX_MAP (trim "A16進風機1運轉訊號".data)) :=
  c3_x_composition.1 "A16進風機1運轉訊號".data "IN_M".data "1".data (by decide)

/-- C4: when a device category matched, `convert_y_name` composes by
category — a motor category yields its display label (via `motorLabel`,
i.e. "In Motor" / "Out Motor" / "Motor") with `area ++ " "` prepended
(space separator) when an area prefix is present; the door category
yields `"DOOR" ++ instanceNumber` with `area ++ "_"` prepended when an
area prefix is present — and the three cited examples hold. -/
theorem c4_y_composition :
    (∀ name code no : List Char,
      extract_device_and_no (trim name) = (some code, no) →
      ((code = "IN_M".data ∨ code = "OUT_M".data ∨ code = "M".data →
        convert_y_name (some name) =
          (if ( extract_area_prefix (trim name)).isEmpty then []
           else extract_area_prefix (trim name) ++ " ".data)
            ++ motorLabel code ++ no) ∧
       (code = "D".data →
        convert_y_name (some name) =
          (if ( extract_area_prefix (trim name)).isEmpty then []
           else extract_area_prefix (trim name) ++ "_".data)
            ++ "DOOR".data ++ no))) ∧
    convert_y_name (some "B2排風機3".data) = "B2 Out Motor3".data ∧
    convert_y_name (some "電動風門5".data) = "DOOR5".data ∧
    convert_y_name (some "C1電動風門5".data) = "C1_DOOR5".data := by
  refine ⟨?_, by decide, by decide, by decide⟩
  intro name code no h
  have hco : coFullmatch (trim name) = false := by
    rcases hcc : coFullmatch (trim name) with _ | _
    · rfl
    · rw [coFullmatch_no_device (trim name) hcc] at h
      simp at h
  constructor
  · intro hm
    by_cases harea : ( extract_area_prefix (trim name)).isEmpty
    <;> simp [convert_y_name, h, hco, hm, harea, List.append_assoc]
  · intro hd
    subst hd
    have hm : ¬("D".data = "IN_M".data ∨ "D".data = "OUT_M".data ∨
        "D".data = "M".data) := by decide
    by_cases harea : ( extract_area_prefix (trim name)).isEmpty
    <;> simp [convert_y_name, h, hco, hm, harea, List.append_assoc]

/-- Witness for C4 at the motor example `"B2排風機3"`. -/
theorem c4_witness :
    convert_y_name (some "B2排風機3".data) =
      (if ( extract_area_prefix (trim "B2排風機3".data)).isEmpty then []
       else extract_area_prefix (trim "B2排風機3".data) ++ " ".data)
        ++ motorLabel "OUT_M".data ++ "3".data :=
  (c4_y_composition.1 "B2排風機3".data "OUT_M".data "3".data (by decide)).1
    (by decide)

/-- C5: an input whose trimmed form fully matches `CO-` followed by
digits is returned unchanged by `convert_y_name`, bypassing all device,
area and suffix logic; in particular `convertY("CO-07") = "CO-07"`. -/
theorem c5_co_passthrough (name : List Char)
    (h : coFullmatch (trim name) = true) :
    convert_y_name (some name) = trim name := by
  simp [convert_y_name, h]

/-- Witness for C5 at `"CO-07"`. -/
theorem c5_witness :
    coFullmatch (trim "CO-07".data) = true ∧
    trim "CO-07".data = "CO-07".data ∧
    convert_y_name (some "CO-07".data) = trim "CO-07".data :=
  ⟨by decide, by decide, c5_co_passthrough "CO-07".data (by decide)⟩

/-- C6: a non-CO label in which no device-lexicon phrase occurs is
returned by `convert_y_name` as the trimmed original, unchanged — no
sanitization, unlike the X-section fallback. -/
theorem c6_y_passthrough (name : List Char)
    (hco : coFullmatch (trim name) = false)
    (h : ∀ e ∈ DEVICE_MAP, occurs e.1 name = false) :
    convert_y_name (some name) = trim name := by
  have h2 : ∀ e ∈ DEVICE_MAP, occurs e.1 (trim name) = false := by
    intro e he
    rcases ho : occurs e.1 (trim name) with _ | _
    · rfl
    · have h3 := occurs_of_occurs_trim e.1 name ho
      rw [h e he] at h3
      cases h3
  have hx : extract_device_and_no (trim name) = (none, []) :=
    deviceScan_nomatch DEVICE_MAP (trim name) h2
  simp [convert_y_name, hco, hx]

/-- Witness for C6 at `"hello !world"` (kept verbatim, where the X path
would have sanitized). -/
theorem c6_witness :
    convert_y_name (some "hello !world".data) = trim "hello !world".data :=
  c6_y_passthrough "hello !world".data (by decide) (by decide)

/-- C7: when a lexicon entry `(zh, en)` is the first (in declared
order) to match, the returned instance number is exactly the first
maximal run of decimal digits after the end of the matched phrase's
first occurrence (index `idx`), and the empty run when no digit occurs
there — as stated by `isFirstDigitRun`. -/
theorem c7_instance_number (s : List Char)
    (pre rest : List (List Char × List Char)) (zh en : List Char) (idx : Nat)
    (hmap : DEVICE_MAP = pre ++ (zh, en) :: rest)
    (hpre : ∀ g ∈ pre, occurs g.1 s = false)
    (hfind : strFind zh s = some idx) :
    (extract_device_and_no s).2 = firstDigitRun (s.drop (idx + zh.length)) ∧
    isFirstDigitRun (s.drop (idx + zh.length)) (extract_device_and_no s).2 := by
  have hd := deviceScan_append pre zh en rest s idx hpre hfind
  rw [extract_device_and_no, hmap, hd]
  exact ⟨rfl, firstDigitRun_spec _⟩

/-- Witness for C7 at `"噴流風機ab12cd3"`: instance number "12", the
first digit run after the phrase. -/
theorem c7_witness :
    isFirstDigitRun ("噴流風機ab12cd3".data.drop (0 + "噴流風機".data.length))
      (extract_device_and_no "噴流風機ab12cd3".data).2 :=
  (c7_instance_number "噴流風機ab12cd3".data
    [("進風機".data, "IN_M".data), ("進氣機".data, "IN_M".data),
     ("排風機".data, "OUT_M".data), ("排氣機".data, "OUT_M".data)]
    [("電動風門".data, "D".data)] "噴流風機".data "M".data 0
    (by decide) (by decide) (by decide)).2

/-- C8: a null cell (modelled by `none`) and a blank label (one whose
trimmed form is empty) both convert to the empty string under both
converters. -/
theorem c8_null_blank (s : List Char) (h : trim s = []) :
    convert_x_name none = [] ∧ convert_y_name none = [] ∧
    convert_x_name (some s) = [] ∧ convert_y_name (some s) = [] := by
  have hx : extract_device_and_no ([] : List Char) = (none, []) := by decide
  refine ⟨rfl, rfl, ?_, ?_⟩
  · simp [convert_x_name, h, hx, sanitize]
  · simp [convert_y_name, h, hx, coFullmatch]

/-- Witness for C8 at the blank label `"  "`. -/
theorem c8_witness :
    convert_x_name none = [] ∧ convert_y_name none = [] ∧
    convert_x_name (some "  ".data) = [] ∧
    convert_y_name (some "  ".data) = [] :=
  c8_null_blank "  ".data (by decide)

/-- C9: every category the device lexicon can return is one of the
four codes handled by `convert_y_name`'s motor and door branches, so
the final fall-through after a successful match is unreachable; the
embedded converters are total functions by construction. -/
theorem c9_category_exhaustive (s c n : List Char)
    (h : extract_device_and_no s = (some c, n)) :
    (c = "IN_M".data ∨ c = "OUT_M".data ∨ c = "M".data) ∨ c = "D".data := by
  obtain ⟨e, he, hc⟩ := deviceScan_code_mem DEVICE_MAP s c n h
  subst hc
  fin_cases he <;> decide

/-- Witness for C9 at `"進風機"`. -/
theorem c9_witness :
    ("IN_M".data = "IN_M".data ∨ "IN_M".data = "OUT_M".data ∨
      "IN_M".data = "M".data) ∨ "IN_M".data = "D".data :=
  c9_category_exhaustive "進風機".data "IN_M".data [] (by decide)

/-- C10: surrounding whitespace never affects either converter — the
output on a label equals the output on its trimmed form. -/
theorem c10_trim_invariant (s : List Char) :
    convert_x_name (some s) = convert_x_name (some (trim s)) ∧
    convert_y_name (some s) = convert_y_name (some (trim s)) := by
  constructor
  · simp only [convert_x_name, trim_trim]
  · simp only [convert_y_name, trim_trim]
